import Mathlib

/-!
Verification of the promfire replication engine.

The definitions below are shallow embeddings of the Go source:
`internal/writer/remote_writer.go` (timestamp coordinator, value
conversion, batching) and `internal/benchmarker` (label combination
generation, metric filtering, rate-limited sending, orchestration).
Machine integers are modelled as `Int`/`Nat`; external effects
(wall clock, network, regex engine) are passed in as explicit
parameters so that the control flow of the source is preserved.
-/

set_option linter.unusedVariables false

/-- One entry of the replication label configuration: a label name and its
ordered list of candidate values (`config.ReplicationLabel`). -/
structure ReplicationLabel where
  name : String
  values : List String
  deriving DecidableEq, Repr

instance : Inhabited ReplicationLabel := ⟨⟨"", []⟩⟩

/-- State of `writer.TimestampCoordinator`: the last handed-out timestamp in
milliseconds and the fixed increment. -/
structure TimestampCoordinator where
  lastTimestamp : Int
  increment : Int
  deriving DecidableEq, Repr

/-- Source `writer.NewTimestampCoordinator`: initialises `lastTimestamp` with the
current wall clock (passed in explicitly) and `increment` with 1 ms. -/
def NewTimestampCoordinator (now : Int) : TimestampCoordinator :=
  { lastTimestamp := now, increment := 1 }

/-- Source `writer.(*TimestampCoordinator).NextTimestamp`: reads the wall clock
(passed in as `now`); if it is ahead of `lastTimestamp` the clock value is
taken, otherwise `lastTimestamp` is bumped by `increment`.  Returns the
handed-out timestamp together with the updated coordinator state. -/
def NextTimestamp (tc : TimestampCoordinator) (now : Int) : Int × TimestampCoordinator :=
  if tc.lastTimestamp < now then
    (now, { tc with lastTimestamp := now })
  else
    (tc.lastTimestamp + tc.increment, { tc with lastTimestamp := tc.lastTimestamp + tc.increment })

/-- The sequence of values returned by consecutive `NextTimestamp` calls,
one per wall-clock reading in `nows` (the readings are arbitrary, so the
model covers a non-monotone wall clock as well). -/
def runTimestamps : TimestampCoordinator → List Int → List Int
  | _, [] => []
  | tc, now :: rest =>
    let r := NextTimestamp tc now
    r.1 :: runTimestamps r.2 rest

/-- A label set, modelled as the sequence of Go map assignments: `setKV`
overwrites an existing binding for the key in place and otherwise appends
the new binding, matching `m[k] = v` on a Go `map[string]string`. -/
def setKV (m : List (String × String)) (k v : String) : List (String × String) :=
  if m.any (fun p => p.1 = k) then
    m.map (fun p => if p.1 = k then (k, v) else p)
  else
    m ++ [(k, v)]

/-- Builds a Go map from the sequence of assignments in `ps`, in order. -/
def toMap (ps : List (String × String)) : List (String × String) :=
  ps.foldl (fun m p => setKV m p.1 p.2) []

/-- The sequence of assignments `labelSet[labelConfig.Name] = labelConfig.Values[valueIndex]`
performed by the inner loop of `generateLabelCombinations` for combination
index `i`: entries with an empty value list are skipped, an entry with
`len > 0` values contributes its value at index `i % len` and the running
index is divided by `len` (mixed-radix decomposition). -/
def combPairs : List ReplicationLabel → Nat → List (String × String)
  | [], _ => []
  | lc :: rest, i =>
    if lc.values.isEmpty then
      combPairs rest i
    else
      (lc.name, lc.values.getD (i % lc.values.length) "") :: combPairs rest (i / lc.values.length)

/-- The auto-fill pass of `generateLabelCombinations`: every entry named
`benchmark_instance` with an empty value list receives the synthetic values
`bench-1 … bench-<replicationFactor>`. -/
def autoFill (rf : Nat) (labels : List ReplicationLabel) : List ReplicationLabel :=
  labels.map (fun lc =>
    if lc.name = "benchmark_instance" ∧ lc.values = [] then
      { lc with values := (List.range rf).map (fun j => "bench-" ++ toString (j + 1)) }
    else lc)

/-- The `totalCombinations` computation of `generateLabelCombinations`: the product of the
value-list lengths of the entries with a non-empty value list. -/
def totalCombinations : List ReplicationLabel → Nat
  | [] => 1
  | lc :: rest =>
    (if lc.values.isEmpty then 1 else lc.values.length) * totalCombinations rest

/-- Source `benchmarker.(*Benchmarker).generateLabelCombinations`: with no
replication labels configured it falls back to `replicationFactor`
singleton sets `{benchmark_replica: replica-<i>}`; otherwise it auto-fills
`benchmark_instance`, caps the combination count at
`min replicationFactor totalCombinations` and enumerates label sets by
mixed-radix decomposition of the combination index. -/
def generateLabelCombinations (replication : List ReplicationLabel) (rf : Nat) :
    List (List (String × String)) :=
  if replication.isEmpty then
    (List.range rf).map (fun i => [("benchmark_replica", "replica-" ++ toString i)])
  else
    let processed := autoFill rf replication
    let maxCombinations := min rf (totalCombinations processed)
    (List.range maxCombinations).map (fun i => toMap (combPairs processed i))

/-- The mixed-radix weight of spec entry `k`: the product of the value-list
lengths of the entries before `k` (entries with empty lists contribute no
factor), i.e. the amount the combination index is divided by before entry
`k` reads its digit. -/
def radixWeight (entries : List ReplicationLabel) (k : Nat) : Nat :=
  totalCombinations (entries.take k)

/-- One element of a raw Prometheus value pair (`[]interface{}` after JSON
decoding): a number, a string, or anything else. -/
inductive RawElem where
  | num (n : Int)
  | str (s : String)
  | other
  deriving DecidableEq, Repr

/-- One raw value pair as returned by the range query (`[]interface{}`). -/
abbrev RawPair := List RawElem

/-- The natural number denoted by a list of decimal digits. -/
def digitsVal (l : List Char) : Nat :=
  l.foldl (fun acc c => 10 * acc + (c.toNat - 48)) 0

/-- A parsed Go float64: a finite value (kept exactly as a rational; the
rounding to the nearest float64 is not modelled), an infinity, or NaN. -/
inductive GoFloat where
  | finite (q : ℚ)
  | posInf
  | negInf
  | nan
  deriving DecidableEq, Repr

/-- Whether a parsed Go float is a finite value. -/
def GoFloat.isFinite : GoFloat → Bool
  | GoFloat.finite _ => true
  | _ => false

/-- Strips one optional leading sign, returning whether it was a minus. -/
def stripSign : List Char → Bool × List Char
  | '-' :: rest => (true, rest)
  | '+' :: rest => (false, rest)
  | l => (false, l)

/-- Decimal mantissa of a Go float literal: digits with an optional dot,
at least one digit overall (so 15, 3.14, 3. and .5 are all accepted).
Returns its exact rational value and the unconsumed characters. -/
def parseDecMantissa (l : List Char) : Option (ℚ × List Char) :=
  let ip := l.takeWhile Char.isDigit
  let rest1 := l.dropWhile Char.isDigit
  match rest1 with
  | '.' :: rest2 =>
    let fp := rest2.takeWhile Char.isDigit
    let rest3 := rest2.dropWhile Char.isDigit
    if ip.isEmpty ∧ fp.isEmpty then none
    else some ((digitsVal ip : ℚ) + (digitsVal fp : ℚ) / (10 : ℚ) ^ fp.length, rest3)
  | _ =>
    if ip.isEmpty then none
    else some ((digitsVal ip : ℚ), rest1)

/-- Optional exponent part of a Go float literal, which must consume the
rest of the string: empty input means exponent 0, otherwise e or E, an
optional sign and at least one digit. -/
def parseExponent (l : List Char) : Option Int :=
  match l with
  | [] => some 0
  | c :: rest =>
    if c = 'e' ∨ c = 'E' then
      let sr := stripSign rest
      let ed := sr.2.takeWhile Char.isDigit
      let rest3 := sr.2.dropWhile Char.isDigit
      if ed.isEmpty ∨ ¬rest3.isEmpty then none
      else some (if sr.1 then -(digitsVal ed : Int) else (digitsVal ed : Int))
    else none

/-- The float64 overflow threshold: a decimal value whose magnitude
reaches 2^1024 - 2^970 rounds to infinity, which `strconv.ParseFloat`
reports as a range error (non-nil error), so the caller drops the pair. -/
def overflowBound : ℚ := 2 ^ 1024 - 2 ^ 970

/-- Model of `strconv.ParseFloat(s, 64)`: `none` exactly when Go returns a
non-nil error (syntax error or overflow range error).  It accepts the
case-insensitive specials NaN and signed Inf/Infinity (which parse with a
nil error to non-finite values), and signed decimal literals with an
optional fraction and optional exponent; a finite value is kept as an
exact rational.  Hexadecimal float literals and digit-group underscores,
which Go also accepts, are not modelled. -/
def parseGoFloat (s : String) : Option GoFloat :=
  let l := s.toList
  if l.map Char.toLower = "nan".toList then some GoFloat.nan
  else
    let sr := stripSign l
    let lowRest := sr.2.map Char.toLower
    if lowRest = "inf".toList ∨ lowRest = "infinity".toList then
      some (if sr.1 then GoFloat.negInf else GoFloat.posInf)
    else
      match parseDecMantissa sr.2 with
      | none => none
      | some (m, rest1) =>
        match parseExponent rest1 with
        | none => none
        | some e =>
          let v := m * (10 : ℚ) ^ e
          if overflowBound ≤ v then none
          else some (GoFloat.finite (if sr.1 then -v else v))

/-- Source `prompb.Sample`: a timestamp in milliseconds and a value. -/
structure Sample where
  timestamp : Int
  value : GoFloat
  deriving DecidableEq, Repr

/-- Source `prompb.TimeSeries`: label pairs and samples. -/
structure TimeSeries where
  labels : List (String × String)
  samples : List Sample
  deriving DecidableEq, Repr

/-- The two failure modes of `convertToTimeSeries`: the up-front check for
an empty value list (`no values provided`) and the post-conversion check
for zero surviving samples (`no valid samples found`). -/
inductive ConvError where
  | noValues
  | noValidSamples
  deriving DecidableEq, Repr

/-- The conversion loop of `convertToTimeSeries`: a pair without exactly
two elements, with a non-string second element, or with a second element
that fails to parse is skipped; each accepted pair consumes one coordinated
timestamp (`nows k` is the wall-clock reading of the k-th `NextTimestamp`
call). -/
def convertLoop (nows : Nat → Int) : Nat → TimestampCoordinator → List RawPair → List Sample
  | _, _, [] => []
  | k, tc, v :: rest =>
    match v with
    | [_, RawElem.str s] =>
      match parseGoFloat s with
      | some q =>
        let r := NextTimestamp tc (nows k)
        ⟨r.1, q⟩ :: convertLoop nows (k + 1) r.2 rest
      | none => convertLoop nows k tc rest
    | _ => convertLoop nows k tc rest

/-- The validity check applied to one raw pair by the conversion loop:
exactly two elements, a string second element, and a parseable value. -/
def isValidPair : RawPair → Bool
  | [_, RawElem.str s] => (parseGoFloat s).isSome
  | _ => false

/-- Source `writer.(*RemoteWriter).convertToTimeSeries`: fails up front on an
empty value list, drops invalid pairs silently, and fails after conversion
exactly when no valid sample survived. -/
def convertToTimeSeries (nows : Nat → Int) (tc : TimestampCoordinator)
    (labels : List (String × String)) (values : List RawPair) : Except ConvError TimeSeries :=
  if values.isEmpty then
    Except.error ConvError.noValues
  else
    let samples := convertLoop nows 0 tc values
    if samples.isEmpty then Except.error ConvError.noValidSamples
    else Except.ok ⟨labels, samples⟩

/-- A write error as surfaced by `sendInBatches`: the element index range
`lo-hi` of the failing batch within the submitted series list. -/
structure WriteError where
  lo : Nat
  hi : Nat
  deriving DecidableEq, Repr

/-- Splits a list into consecutive chunks of at most `bs` elements, the
slicing pattern of the loops `for i := 0; i < len; i += bs` in
`sendInBatches` and `sendSamples`.  The Go loop does not terminate for
`bs = 0`; every caller passes a configured size of at least 1, and the
model returns `[]` there. -/
def chunksOf {α : Type*} (bs : Nat) : List α → List (List α)
  | [] => []
  | a :: t =>
    if h : bs = 0 then []
    else (a :: t).take bs :: chunksOf bs ((a :: t).drop bs)
termination_by l => l.length
decreasing_by
  simp only [List.length_drop, List.length_cons]
  omega

/-- The batch loop of `writer.(*RemoteWriter).sendInBatches`, with the
network modelled by `net`, the success of the HTTP POST for each batch
ordinal.  `i` is the element index of the current batch and `total` the
length of the full series list.  Returns the batches sent successfully, in
order, together with the error of the first failing batch (carrying its
index range); a failing batch aborts the loop, so no later batch is
attempted and no batch is retried. -/
def sendBatchesLoop (net : Nat → Bool) (bs total : Nat) :
    Nat → List TimeSeries → List (List TimeSeries) × Option WriteError
  | _, [] => ([], none)
  | i, s :: rem =>
    if h : bs = 0 then ([], none)
    else if net (i / bs) then
      let r := sendBatchesLoop net bs total (i + bs) ((s :: rem).drop bs)
      ((s :: rem).take bs :: r.1, r.2)
    else
      ([], some ⟨i, min (i + bs) total⟩)
termination_by i l => l.length
decreasing_by
  simp only [List.length_drop, List.length_cons]
  omega

/-- Source `writer.(*RemoteWriter).sendInBatches`. -/
def sendInBatches (net : Nat → Bool) (bs : Nat) (l : List TimeSeries) :
    List (List TimeSeries) × Option WriteError :=
  sendBatchesLoop net bs l.length 0 l

/-- Trace of one `sendSamples` call: the token counts passed to the rate
limiter (one blocking acquisition per chunk, in order) and the chunks
handed to the remote writer (none when the writer is nil). -/
structure SendSamplesTrace where
  acquires : List Nat
  written : List (List RawPair)
  deriving DecidableEq, Repr

/-- The chunk loop of `sendSamples`: each chunk of at most `burst` samples
acquires its size in tokens, then is written when a remote writer is
present. -/
def sendSamplesLoop (wp : Bool) (burst : Nat) : List RawPair → SendSamplesTrace
  | [] => ⟨[], []⟩
  | v :: rem =>
    if h : burst = 0 then ⟨[], []⟩
    else
      let chunk := (v :: rem).take burst
      let r := sendSamplesLoop wp burst ((v :: rem).drop burst)
      ⟨chunk.length :: r.acquires, (if wp then [chunk] else []) ++ r.written⟩
termination_by l => l.length
decreasing_by
  simp only [List.length_drop, List.length_cons]
  omega

/-- Source `benchmarker.(*Benchmarker).sendSamples`: returns immediately on an
empty sample list, otherwise splits the samples into chunks of at most
`burst` and processes them in order.  Send outcomes are not modelled here;
failure propagation lives in the orchestrator model. -/
def sendSamples (wp : Bool) (burst : Nat) (values : List RawPair) : SendSamplesTrace :=
  if values.isEmpty then ⟨[], []⟩
  else sendSamplesLoop wp burst values

/-- Source `benchmarker.NewBenchmarker`: the remote writer is only constructed
when not in dry-run mode. -/
def writerPresent (dryRun : Bool) : Bool := !dryRun

/-- The label merge of `replicateSeries`: the original series labels are
copied into a fresh map first, then the replication label set is written
over them, so overlay keys replace base keys. -/
def mergeLabels (base overlay : List (String × String)) : List (String × String) :=
  (base ++ overlay).foldl (fun m p => setKV m p.1 p.2) []

/-- Trace of one `replicateSeries` call: the label sets reported in dry-run
mode and the `sendSamples` calls made otherwise. -/
structure ReplicateTrace where
  reported : List (List (String × String))
  sent : List (List (String × String) × List RawPair)
  deriving DecidableEq, Repr

/-- The combination loop of `replicateSeries`: stops once the replication
factor is reached; per combination it merges the labels and either reports
the intended series (dry run) or sends the samples. -/
def replicateLoop (dryRun : Bool) (rf : Nat) (seriesLabels : List (String × String))
    (values : List RawPair) : Nat → List (List (String × String)) → ReplicateTrace
  | _, [] => ⟨[], []⟩
  | i, ls :: rest =>
    if rf ≤ i then ⟨[], []⟩
    else
      let newLabels := mergeLabels seriesLabels ls
      let r := replicateLoop dryRun rf seriesLabels values (i + 1) rest
      if dryRun then ⟨newLabels :: r.reported, r.sent⟩
      else ⟨r.reported, (newLabels, values) :: r.sent⟩

/-- Source `benchmarker.(*Benchmarker).replicateSeries`. -/
def replicateSeries (dryRun : Bool) (rf : Nat) (replication : List ReplicationLabel)
    (seriesLabels : List (String × String)) (values : List RawPair) : ReplicateTrace :=
  replicateLoop dryRun rf seriesLabels values 0 (generateLabelCombinations replication rf)

/-- Source `benchmarker.NewBenchmarker` pattern compilation: each exclude pattern
is compiled with the supplied regex compiler; a pattern that fails to
compile is logged and skipped while the remaining patterns are still
compiled.  A compiled pattern is modelled by its match predicate. -/
def compilePatterns (compile : String → Option (String → Bool)) (patterns : List String) :
    List (String → Bool) :=
  patterns.filterMap compile

/-- Source `benchmarker.(*Benchmarker).filterMetrics`: keeps exactly the metric
names matching none of the compiled exclude patterns. -/
def filterMetrics (regexes : List (String → Bool)) (metrics : List String) : List String :=
  metrics.filter (fun m => !(regexes.any (fun r => r m)))

/-- The fatal outcomes of a run: a discovery failure or cancellation. -/
inductive RunError where
  | discovery (msg : String)
  | cancelled
  deriving DecidableEq, Repr

/-- The per-series loop of `processMetric`: every series is attempted in
order; a replication error is logged and the loop continues with the next
series.  Returns the indices of the attempted series. -/
def processSeriesLoop : Nat → List (Except String Unit) → List Nat
  | _, [] => []
  | j, Except.error _ :: rest => j :: processSeriesLoop (j + 1) rest
  | j, Except.ok _ :: rest => j :: processSeriesLoop (j + 1) rest

/-- Source `benchmarker.(*Benchmarker).processMetric`: fails exactly when the
range query fails; per-series replication failures are logged and the loop
proceeds. -/
def processMetric (query : Except String (List (Except String Unit))) :
    Except String (List Nat) :=
  match query with
  | Except.error e => Except.error e
  | Except.ok seriesOutcomes => Except.ok (processSeriesLoop 0 seriesOutcomes)

/-- The metric loop of `processMetrics`: before each metric the
cancellation signal is checked (`cancel i` is whether the context is done
before metric `i`); a failing metric is logged and the loop continues with
the next metric.  Returns the indices of the attempted metrics together
with the run error, if any. -/
def processMetricsLoop (cancel : Nat → Bool)
    (query : Nat → Except String (List (Except String Unit))) :
    Nat → List String → List Nat × Option RunError
  | _, [] => ([], none)
  | i, _m :: rest =>
    if cancel i then ([], some RunError.cancelled)
    else
      match processMetric (query i) with
      | Except.error _ =>
        let r := processMetricsLoop cancel query (i + 1) rest
        (i :: r.1, r.2)
      | Except.ok _ =>
        let r := processMetricsLoop cancel query (i + 1) rest
        (i :: r.1, r.2)

/-- Source `benchmarker.(*Benchmarker).Run`: a discovery failure aborts the run;
otherwise the discovered metrics are filtered and processed sequentially.
Returns the indices of the attempted metrics on success. -/
def Run (regexes : List (String → Bool)) (discovery : Except String (List String))
    (cancel : Nat → Bool) (query : Nat → Except String (List (Except String Unit))) :
    Except RunError (List Nat) :=
  match discovery with
  | Except.error e => Except.error (RunError.discovery e)
  | Except.ok metrics =>
    match processMetricsLoop cancel query 0 (filterMetrics regexes metrics) with
    | (_, some e) => Except.error e
    | (tr, none) => Except.ok tr

/-- A network stub that fails exactly the second batch, used by the batch
witness. -/
def failSecond : Nat → Bool := fun k => decide (k ≠ 1)

/-- Five one-label series used by the batch witness. -/
def fiveSeries : List TimeSeries :=
  [⟨[("i", "0")], []⟩, ⟨[("i", "1")], []⟩, ⟨[("i", "2")], []⟩,
   ⟨[("i", "3")], []⟩, ⟨[("i", "4")], []⟩]

/-- A regex compiler stub for the filter witness: the pattern ^go_
compiles to a matcher for that prefix, the pattern [unclosed fails to
compile. -/
def demoCompile : String → Option (String → Bool) :=
  fun pat => if pat = "^go_" then some (fun m => m.startsWith "go_") else none

theorem NextTimestamp_gt (tc : TimestampCoordinator) (now : Int) (hinc : 0 < tc.increment) :
    tc.lastTimestamp < (NextTimestamp tc now).1 := by
  rw [NextTimestamp]
  split_ifs with h
  · exact h
  · simpa using hinc

theorem NextTimestamp_state (tc : TimestampCoordinator) (now : Int) :
    (NextTimestamp tc now).2.lastTimestamp = (NextTimestamp tc now).1 ∧
    (NextTimestamp tc now).2.increment = tc.increment := by
  rw [NextTimestamp]
  split_ifs <;> exact ⟨rfl, rfl⟩

theorem runTimestamps_gt_pairwise (nows : List Int) :
    ∀ tc : TimestampCoordinator, 0 < tc.increment →
      (∀ t ∈ runTimestamps tc nows, tc.lastTimestamp < t) ∧
      (runTimestamps tc nows).Pairwise (· < ·) := by
  induction nows with
  | nil => intro tc _; simp [runTimestamps]
  | cons now rest ih =>
    intro tc hinc
    have hstate := NextTimestamp_state tc now
    have hgt := NextTimestamp_gt tc now hinc
    have hinc' : 0 < (NextTimestamp tc now).2.increment := by rw [hstate.2]; exact hinc
    have htail := ih (NextTimestamp tc now).2 hinc'
    have htail_gt : ∀ t ∈ runTimestamps (NextTimestamp tc now).2 rest,
        (NextTimestamp tc now).1 < t := by
      intro t ht
      have := htail.1 t ht
      rwa [hstate.1] at this
    constructor
    · intro t ht
      simp only [runTimestamps, List.mem_cons] at ht
      rcases ht with rfl | ht
      · exact hgt
      · exact lt_trans hgt (htail_gt t ht)
    · simp only [runTimestamps]
      exact List.Pairwise.cons htail_gt htail.2

/-- C1: every call to `NextTimestamp` returns a value strictly greater than
every previously returned value (over any sequence of wall-clock readings),
the returned value is the wall clock when it is ahead of `lastTimestamp` and
`lastTimestamp + increment` otherwise, and the constructor fixes the
increment at 1 ms. -/
theorem C1_NextTimestamp_strictly_increasing (init : Int) (nows : List Int) :
    (runTimestamps (NewTimestampCoordinator init) nows).Pairwise (· < ·) ∧
    (∀ tc now, (NextTimestamp tc now).1 =
      if tc.lastTimestamp < now then now else tc.lastTimestamp + tc.increment) ∧
    (NewTimestampCoordinator init).increment = 1 := by
  refine ⟨?_, ?_, rfl⟩
  · exact (runTimestamps_gt_pairwise nows (NewTimestampCoordinator init) (by norm_num [NewTimestampCoordinator])).2
  · intro tc now
    rw [NextTimestamp]
    split_ifs <;> rfl


theorem getD_mem_of_lt {α : Type*} (l : List α) (n : Nat) (d : α) (h : n < l.length) :
    l.getD n d ∈ l := by
  induction l generalizing n with
  | nil => simp at h
  | cons a t ih =>
    cases n with
    | zero => simp [List.getD_cons_zero]
    | succ m =>
      rw [List.getD_cons_succ]
      exact List.mem_cons_of_mem a (ih m (by simpa using h))

theorem mem_setKV (m : List (String × String)) (k v : String) (q : String × String)
    (hq : q ∈ setKV m k v) : q ∈ m ∨ q = (k, v) := by
  unfold setKV at hq
  split_ifs at hq with h
  · rcases List.mem_map.mp hq with ⟨p, hp, hpq⟩
    by_cases hk : p.1 = k
    · right
      simp only [hk, if_true] at hpq
      exact hpq.symm
    · left
      simp only [hk, if_false] at hpq
      exact hpq ▸ hp
  · rcases List.mem_append.mp hq with h1 | h2
    · left; exact h1
    · right; simpa using h2

theorem mem_foldl_setKV (ps : List (String × String)) :
    ∀ (m : List (String × String)) (q : String × String),
      q ∈ ps.foldl (fun m p => setKV m p.1 p.2) m → q ∈ m ∨ q ∈ ps := by
  induction ps with
  | nil =>
    intro m q hq
    left
    simpa using hq
  | cons p rest ih =>
    intro m q hq
    simp only [List.foldl_cons] at hq
    rcases ih (setKV m p.1 p.2) q hq with h1 | h2
    · rcases mem_setKV m p.1 p.2 q h1 with hm | he
      · left; exact hm
      · right; simp [he]
    · right; exact List.mem_cons_of_mem p h2

theorem mem_toMap (ps : List (String × String)) (q : String × String)
    (hq : q ∈ toMap ps) : q ∈ ps := by
  rcases mem_foldl_setKV ps [] q hq with h | h
  · simp at h
  · exact h

theorem length_pos_of_not_isEmpty {α : Type*} {l : List α} (h : l.isEmpty = false) :
    0 < l.length := by
  cases l with
  | nil => simp [List.isEmpty] at h
  | cons a t => simp

theorem mem_combPairs (entries : List ReplicationLabel) :
    ∀ (i : Nat) (p : String × String), p ∈ combPairs entries i →
      ∃ lc ∈ entries, p.1 = lc.name ∧ p.2 ∈ lc.values := by
  induction entries with
  | nil =>
    intro i p hp
    simp [combPairs] at hp
  | cons lc rest ih =>
    intro i p hp
    cases hve : lc.values.isEmpty with
    | true =>
      rw [combPairs, hve, if_pos rfl] at hp
      rcases ih i p hp with ⟨lc', h1, h2⟩
      exact ⟨lc', List.mem_cons_of_mem lc h1, h2⟩
    | false =>
      rw [combPairs, hve] at hp
      simp only [Bool.false_eq_true, if_false, List.mem_cons] at hp
      rcases hp with rfl | hp'
      · refine ⟨lc, List.mem_cons_self lc rest, rfl, ?_⟩
        exact getD_mem_of_lt _ _ _ (Nat.mod_lt _ (length_pos_of_not_isEmpty hve))
      · rcases ih _ p hp' with ⟨lc', h1, h2⟩
        exact ⟨lc', List.mem_cons_of_mem lc h1, h2⟩

theorem isEmpty_false_of_ne_nil {α : Type*} {l : List α} (h : l ≠ []) :
    l.isEmpty = false := by
  cases l with
  | nil => exact absurd rfl h
  | cons a t => rfl

/-- C2: for every (spec, replicationFactor) with replicationFactor at
least 1, an empty spec yields exactly replicationFactor singleton sets
{benchmark_replica: replica-i} for i in [0, replicationFactor); a
non-empty spec yields min(replicationFactor, product of the non-empty
value-list lengths after benchmark_instance auto-fill) combinations, and
every produced value is drawn from the value list of the corresponding
processed spec entry. -/
theorem C2_generateLabelCombinations (replication : List ReplicationLabel) (rf : Nat)
    (hrf : 1 ≤ rf) :
    (replication = [] →
      generateLabelCombinations replication rf =
        (List.range rf).map (fun i => [("benchmark_replica", "replica-" ++ toString i)])) ∧
    (replication ≠ [] →
      (generateLabelCombinations replication rf).length =
        min rf (totalCombinations (autoFill rf replication)) ∧
      ∀ ls ∈ generateLabelCombinations replication rf, ∀ p ∈ ls,
        ∃ lc ∈ autoFill rf replication, p.1 = lc.name ∧ p.2 ∈ lc.values) := by
  constructor
  · intro h
    subst h
    rfl
  · intro h
    have hne : replication.isEmpty = false := isEmpty_false_of_ne_nil h
    have hgen : generateLabelCombinations replication rf =
        (List.range (min rf (totalCombinations (autoFill rf replication)))).map
          (fun i => toMap (combPairs (autoFill rf replication) i)) := by
      unfold generateLabelCombinations
      rw [hne]
      simp
    constructor
    · rw [hgen]
      simp
    · intro ls hls p hp
      rw [hgen] at hls
      rcases List.mem_map.mp hls with ⟨i, _, rfl⟩
      exact mem_combPairs _ i p (mem_toMap _ p hp)

/-- Witness for C2 at the concrete spec [region: us,eu] with replication
factor 2. -/
theorem C2_generateLabelCombinations_witness :
    1 ≤ 2 ∧
    ((([⟨"region", ["us", "eu"]⟩] : List ReplicationLabel) = [] →
      generateLabelCombinations [⟨"region", ["us", "eu"]⟩] 2 =
        (List.range 2).map (fun i => [("benchmark_replica", "replica-" ++ toString i)])) ∧
    (([⟨"region", ["us", "eu"]⟩] : List ReplicationLabel) ≠ [] →
      (generateLabelCombinations [⟨"region", ["us", "eu"]⟩] 2).length =
        min 2 (totalCombinations (autoFill 2 [⟨"region", ["us", "eu"]⟩])) ∧
      ∀ ls ∈ generateLabelCombinations [⟨"region", ["us", "eu"]⟩] 2, ∀ p ∈ ls,
        ∃ lc ∈ autoFill 2 [⟨"region", ["us", "eu"]⟩], p.1 = lc.name ∧ p.2 ∈ lc.values)) :=
  ⟨by decide, C2_generateLabelCombinations [⟨"region", ["us", "eu"]⟩] 2 (by decide)⟩

theorem autoFill_of_nonempty (rf : Nat) (entries : List ReplicationLabel)
    (hne : ∀ lc ∈ entries, lc.values ≠ []) : autoFill rf entries = entries := by
  induction entries with
  | nil => rfl
  | cons lc rest ih =>
    have h1 : lc.values ≠ [] := hne lc (List.mem_cons_self lc rest)
    have h2 : autoFill rf rest = rest := ih (fun x hx => hne x (List.mem_cons_of_mem lc hx))
    unfold autoFill at h2 ⊢
    simp only [List.map_cons]
    rw [h2]
    congr 1
    simp [h1]

theorem combPairs_getD (entries : List ReplicationLabel)
    (hne : ∀ lc ∈ entries, lc.values ≠ []) :
    ∀ (i k : Nat), k < entries.length →
      (combPairs entries i).getD k ("", "") =
        ((entries.getD k default).name,
         (entries.getD k default).values.getD
           ((i / radixWeight entries k) % (entries.getD k default).values.length) "") := by
  induction entries with
  | nil => intro i k hk; simp at hk
  | cons lc rest ih =>
    intro i k hk
    have h1 : lc.values ≠ [] := hne lc (List.mem_cons_self lc rest)
    have hve : lc.values.isEmpty = false := isEmpty_false_of_ne_nil h1
    cases k with
    | zero =>
      rw [combPairs, hve]
      simp only [Bool.false_eq_true, if_false, List.getD_cons_zero]
      have hw : radixWeight (lc :: rest) 0 = 1 := rfl
      rw [hw, Nat.div_one]
    | succ m =>
      rw [combPairs, hve]
      simp only [Bool.false_eq_true, if_false, List.getD_cons_succ]
      have hm : m < rest.length := by simpa using hk
      rw [ih (fun x hx => hne x (List.mem_cons_of_mem lc hx)) (i / lc.values.length) m hm]
      have hw : radixWeight (lc :: rest) (m + 1) = lc.values.length * radixWeight rest m := by
        simp [radixWeight, List.take_succ_cons, totalCombinations, hve]
      rw [hw, Nat.div_div_eq_div_mul]

/-- C3: with all value lists non-empty the generator enumerates
min(replicationFactor, product) combinations, and the assignment performed
for spec entry k at combination index i uses the value at index
(i / radixWeight k) mod len(values k) of that entry value list, where
radixWeight k is the product of the value-list lengths of the earlier
entries; in particular the spec [region: us,eu; env: x,y] with replication
factor 4 enumerates (us,x), (eu,x), (us,y), (eu,y) in that order. -/
theorem C3_mixed_radix (entries : List ReplicationLabel) (rf : Nat)
    (hne : ∀ lc ∈ entries, lc.values ≠ []) (hents : entries ≠ []) :
    (generateLabelCombinations entries rf =
      (List.range (min rf (totalCombinations entries))).map
        (fun i => toMap (combPairs entries i))) ∧
    (∀ i k, k < entries.length →
      (combPairs entries i).getD k ("", "") =
        ((entries.getD k default).name,
         (entries.getD k default).values.getD
           ((i / radixWeight entries k) % (entries.getD k default).values.length) "")) ∧
    generateLabelCombinations [⟨"region", ["us", "eu"]⟩, ⟨"env", ["x", "y"]⟩] 4 =
      [[("region", "us"), ("env", "x")], [("region", "eu"), ("env", "x")],
       [("region", "us"), ("env", "y")], [("region", "eu"), ("env", "y")]] := by
  refine ⟨?_, combPairs_getD entries hne, by decide⟩
  have hE : entries.isEmpty = false := isEmpty_false_of_ne_nil hents
  have hAF : autoFill rf entries = entries := autoFill_of_nonempty rf entries hne
  unfold generateLabelCombinations
  rw [hE]
  simp only [Bool.false_eq_true, if_false]
  rw [hAF]

/-- Witness for C3 at the concrete spec [region: us,eu; env: x,y] with
replication factor 4. -/
theorem C3_mixed_radix_witness :
    (∀ lc ∈ ([⟨"region", ["us", "eu"]⟩, ⟨"env", ["x", "y"]⟩] : List ReplicationLabel),
        lc.values ≠ []) ∧
    ((generateLabelCombinations [⟨"region", ["us", "eu"]⟩, ⟨"env", ["x", "y"]⟩] 4 =
      (List.range (min 4 (totalCombinations [⟨"region", ["us", "eu"]⟩, ⟨"env", ["x", "y"]⟩]))).map
        (fun i => toMap (combPairs [⟨"region", ["us", "eu"]⟩, ⟨"env", ["x", "y"]⟩] i))) ∧
    (∀ i k, k < ([⟨"region", ["us", "eu"]⟩, ⟨"env", ["x", "y"]⟩] : List ReplicationLabel).length →
      (combPairs [⟨"region", ["us", "eu"]⟩, ⟨"env", ["x", "y"]⟩] i).getD k ("", "") =
        ((([⟨"region", ["us", "eu"]⟩, ⟨"env", ["x", "y"]⟩] : List ReplicationLabel).getD k default).name,
         (([⟨"region", ["us", "eu"]⟩, ⟨"env", ["x", "y"]⟩] : List ReplicationLabel).getD k default).values.getD
           ((i / radixWeight [⟨"region", ["us", "eu"]⟩, ⟨"env", ["x", "y"]⟩] k) %
            (([⟨"region", ["us", "eu"]⟩, ⟨"env", ["x", "y"]⟩] : List ReplicationLabel).getD k default).values.length) "")) ∧
    generateLabelCombinations [⟨"region", ["us", "eu"]⟩, ⟨"env", ["x", "y"]⟩] 4 =
      [[("region", "us"), ("env", "x")], [("region", "eu"), ("env", "x")],
       [("region", "us"), ("env", "y")], [("region", "eu"), ("env", "y")]]) :=
  ⟨by decide, C3_mixed_radix [⟨"region", ["us", "eu"]⟩, ⟨"env", ["x", "y"]⟩] 4 (by decide) (by decide)⟩

/-- C10 counterexample: in the spec [a: (empty); a: v] the first entry has
an empty value list and a name other than benchmark_instance, yet the
generated combination does contain the key a, contributed by the
second entry of the same name.  So the claim that the empty entry name
never appears as a key fails as stated. -/
theorem C10_counterexample :
    (⟨"a", []⟩ : ReplicationLabel) ∈ ([⟨"a", []⟩, ⟨"a", ["v"]⟩] : List ReplicationLabel) ∧
    (⟨"a", []⟩ : ReplicationLabel).values = [] ∧
    (⟨"a", []⟩ : ReplicationLabel).name ≠ "benchmark_instance" ∧
    ∃ ls ∈ generateLabelCombinations [⟨"a", []⟩, ⟨"a", ["v"]⟩] 1,
      ∃ p ∈ ls, p.1 = (⟨"a", []⟩ : ReplicationLabel).name := by decide

theorem totalCombinations_append (l1 l2 : List ReplicationLabel) :
    totalCombinations (l1 ++ l2) = totalCombinations l1 * totalCombinations l2 := by
  induction l1 with
  | nil => simp [totalCombinations]
  | cons lc rest ih => simp [totalCombinations, ih, Nat.mul_assoc]

theorem combPairs_append_skip (e : ReplicationLabel) (hev : e.values = [])
    (l2 : List ReplicationLabel) :
    ∀ (l1 : List ReplicationLabel) (i : Nat),
      combPairs (l1 ++ e :: l2) i = combPairs (l1 ++ l2) i := by
  intro l1
  induction l1 with
  | nil =>
    intro i
    have hE : e.values.isEmpty = true := by simp [hev]
    simp only [List.nil_append]
    rw [combPairs, hE, if_pos rfl]
  | cons a rest ih =>
    intro i
    simp only [List.cons_append]
    cases hva : a.values.isEmpty with
    | true =>
      simp only [combPairs, hva, if_pos]
      exact ih i
    | false =>
      simp only [combPairs, hva, Bool.false_eq_true, if_false]
      rw [ih (i / a.values.length)]

theorem autoFill_mem_name (rf : Nat) (L : List ReplicationLabel) (lc : ReplicationLabel)
    (h : lc ∈ autoFill rf L) :
    ∃ orig ∈ L, lc.name = orig.name ∧ (orig.name ≠ "benchmark_instance" → lc = orig) := by
  unfold autoFill at h
  rcases List.mem_map.mp h with ⟨orig, ho, hfo⟩
  refine ⟨orig, ho, ?_, ?_⟩
  · rw [← hfo]
    by_cases hc : orig.name = "benchmark_instance" ∧ orig.values = []
    · rw [if_pos hc]
    · rw [if_neg hc]
  · intro hb
    rw [← hfo, if_neg (fun hc => hb hc.1)]

theorem autoFill_append (rf : Nat) (l1 l2 : List ReplicationLabel) :
    autoFill rf (l1 ++ l2) = autoFill rf l1 ++ autoFill rf l2 := by
  unfold autoFill
  rw [List.map_append]

theorem autoFill_cons_untouched (rf : Nat) (e : ReplicationLabel)
    (hen : e.name ≠ "benchmark_instance") (l : List ReplicationLabel) :
    autoFill rf (e :: l) = e :: autoFill rf l := by
  unfold autoFill
  rw [List.map_cons, if_neg (fun hc => hen hc.1)]

theorem C10_contribution (s1 s2 : List ReplicationLabel) (e : ReplicationLabel) (rf : Nat)
    (hev : e.values = []) (hen : e.name ≠ "benchmark_instance") :
    totalCombinations (autoFill rf (s1 ++ e :: s2)) =
      totalCombinations (autoFill rf (s1 ++ s2)) ∧
    ∀ i, combPairs (autoFill rf (s1 ++ e :: s2)) i =
      combPairs (autoFill rf (s1 ++ s2)) i := by
  have hmap : autoFill rf (s1 ++ e :: s2) = autoFill rf s1 ++ e :: autoFill rf s2 := by
    rw [autoFill_append, autoFill_cons_untouched rf e hen]
  have hmap2 : autoFill rf (s1 ++ s2) = autoFill rf s1 ++ autoFill rf s2 :=
    autoFill_append rf s1 s2
  constructor
  · rw [hmap, hmap2, totalCombinations_append, totalCombinations_append]
    congr 1
    simp [totalCombinations, hev]
  · intro i
    rw [hmap, hmap2]
    exact combPairs_append_skip e hev (autoFill rf s2) (autoFill rf s1) i

theorem C10_key_absent (s1 s2 : List ReplicationLabel) (e : ReplicationLabel) (rf : Nat)
    (hev : e.values = []) (hen : e.name ≠ "benchmark_instance")
    (hdist : ∀ x ∈ s1 ++ s2, x.name ≠ e.name) :
    ∀ ls ∈ generateLabelCombinations (s1 ++ e :: s2) rf, ∀ p ∈ ls, p.1 ≠ e.name := by
  intro ls hls p hp hpeq
  have hnn : (s1 ++ e :: s2) ≠ [] := by simp
  have hE : (s1 ++ e :: s2).isEmpty = false := isEmpty_false_of_ne_nil hnn
  have hgen : generateLabelCombinations (s1 ++ e :: s2) rf =
      (List.range (min rf (totalCombinations (autoFill rf (s1 ++ e :: s2))))).map
        (fun i => toMap (combPairs (autoFill rf (s1 ++ e :: s2)) i)) := by
    unfold generateLabelCombinations
    rw [hE]
    simp
  rw [hgen] at hls
  rcases List.mem_map.mp hls with ⟨i, _, rfl⟩
  obtain ⟨lc, hlc, hname, hval⟩ := mem_combPairs _ i p (mem_toMap _ p hp)
  obtain ⟨orig, horig, honame, hountouched⟩ := autoFill_mem_name rf _ lc hlc
  have horigname : orig.name = e.name := by rw [← honame, ← hname, hpeq]
  rcases List.mem_append.mp horig with h1 | h2
  · exact hdist orig (List.mem_append_left s2 h1) horigname
  · rcases List.mem_cons.mp h2 with rfl | h3
    · have : lc = orig := hountouched (by rw [horigname]; exact hen)
      rw [this, hev] at hval
      simp at hval
    · exact hdist orig (List.mem_append_right s1 h3) horigname

theorem benchInstance_pair_present (rf : Nat) (hrf : 1 ≤ rf) (t2 : List ReplicationLabel) :
    ∀ (t1 : List ReplicationLabel) (i : Nat),
      ∃ v ∈ (List.range rf).map (fun j => "bench-" ++ toString (j + 1)),
        ("benchmark_instance", v) ∈
          combPairs (autoFill rf (t1 ++ ⟨"benchmark_instance", []⟩ :: t2)) i := by
  intro t1
  induction t1 with
  | nil =>
    intro i
    simp only [List.nil_append]
    have hfill : autoFill rf ((⟨"benchmark_instance", []⟩ : ReplicationLabel) :: t2) =
        (⟨"benchmark_instance", (List.range rf).map (fun j => "bench-" ++ toString (j + 1))⟩ :
          ReplicationLabel) :: autoFill rf t2 := by
      unfold autoFill
      rw [List.map_cons, if_pos ⟨rfl, rfl⟩]
    rw [hfill]
    have hlen : ((List.range rf).map (fun j => "bench-" ++ toString (j + 1))).length = rf := by
      simp
    have hne : ((List.range rf).map (fun j => "bench-" ++ toString (j + 1))).isEmpty = false := by
      apply isEmpty_false_of_ne_nil
      intro hnil
      rw [hnil] at hlen
      simp at hlen
      omega
    rw [combPairs, hne]
    simp only [Bool.false_eq_true, if_false]
    refine ⟨((List.range rf).map (fun j => "bench-" ++ toString (j + 1))).getD
      (i % ((List.range rf).map (fun j => "bench-" ++ toString (j + 1))).length) "", ?_, ?_⟩
    · apply getD_mem_of_lt
      apply Nat.mod_lt
      rw [hlen]
      omega
    · exact List.mem_cons_self _ _
  | cons a rest ih =>
    intro i
    simp only [List.cons_append]
    rcases autoFill_eq : autoFill rf (a :: (rest ++ ⟨"benchmark_instance", []⟩ :: t2)) with _ | ⟨fa, ftail⟩
    · exfalso
      have : (autoFill rf (a :: (rest ++ ⟨"benchmark_instance", []⟩ :: t2))).length =
          (a :: (rest ++ ⟨"benchmark_instance", []⟩ :: t2)).length := by
        unfold autoFill
        simp
      rw [autoFill_eq] at this
      simp at this
    · have htail : ftail = autoFill rf (rest ++ ⟨"benchmark_instance", []⟩ :: t2) := by
        unfold autoFill at autoFill_eq
        rw [List.map_cons] at autoFill_eq
        exact (List.cons.injEq _ _ _ _ ▸ autoFill_eq).2.symm
      cases hva : fa.values.isEmpty with
      | true =>
        rw [combPairs, hva, if_pos rfl, htail]
        exact ih i
      | false =>
        rw [combPairs, hva]
        simp only [Bool.false_eq_true, if_false]
        rcases ih (i / fa.values.length) with ⟨v, hv1, hv2⟩
        refine ⟨v, hv1, ?_⟩
        rw [htail]
        exact List.mem_cons_of_mem _ hv2

/-- C10 (amended): a spec entry with a name other than benchmark_instance
and an empty value list contributes no factor to the combination count and
no assignment to any combination (removing it changes neither), and its
name appears in no combination provided no other entry shares that name;
an empty-valued benchmark_instance entry is auto-filled with bench-1 ..
bench-replicationFactor and does contribute an assignment (for
replicationFactor at least 1). -/
theorem C10_empty_entry_contribution :
    (∀ (s1 s2 : List ReplicationLabel) (e : ReplicationLabel) (rf : Nat),
      e.values = [] → e.name ≠ "benchmark_instance" →
      totalCombinations (autoFill rf (s1 ++ e :: s2)) =
        totalCombinations (autoFill rf (s1 ++ s2)) ∧
      ∀ i, combPairs (autoFill rf (s1 ++ e :: s2)) i =
        combPairs (autoFill rf (s1 ++ s2)) i) ∧
    (∀ (s1 s2 : List ReplicationLabel) (e : ReplicationLabel) (rf : Nat),
      e.values = [] → e.name ≠ "benchmark_instance" →
      (∀ x ∈ s1 ++ s2, x.name ≠ e.name) →
      ∀ ls ∈ generateLabelCombinations (s1 ++ e :: s2) rf, ∀ p ∈ ls, p.1 ≠ e.name) ∧
    (∀ (t1 t2 : List ReplicationLabel) (rf i : Nat), 1 ≤ rf →
      ∃ v ∈ (List.range rf).map (fun j => "bench-" ++ toString (j + 1)),
        ("benchmark_instance", v) ∈
          combPairs (autoFill rf (t1 ++ ⟨"benchmark_instance", []⟩ :: t2)) i) :=
  ⟨fun s1 s2 e rf hev hen => C10_contribution s1 s2 e rf hev hen,
   fun s1 s2 e rf hev hen hdist => C10_key_absent s1 s2 e rf hev hen hdist,
   fun t1 t2 rf i hrf => benchInstance_pair_present rf hrf t2 t1 i⟩

/-- Witness for the amended C10 at concrete specs. -/
theorem C10_empty_entry_contribution_witness :
    ((⟨"a", []⟩ : ReplicationLabel).values = [] ∧
     (⟨"a", []⟩ : ReplicationLabel).name ≠ "benchmark_instance" ∧
     (∀ x ∈ ([⟨"b", ["v1", "v2"]⟩] : List ReplicationLabel) ++ ([] : List ReplicationLabel),
        x.name ≠ (⟨"a", []⟩ : ReplicationLabel).name) ∧
     1 ≤ 2) ∧
    (totalCombinations (autoFill 2 ([⟨"b", ["v1", "v2"]⟩] ++ (⟨"a", []⟩ : ReplicationLabel) :: [])) =
       totalCombinations (autoFill 2 ([⟨"b", ["v1", "v2"]⟩] ++ [])) ∧
     (∀ i, combPairs (autoFill 2 ([⟨"b", ["v1", "v2"]⟩] ++ (⟨"a", []⟩ : ReplicationLabel) :: [])) i =
        combPairs (autoFill 2 ([⟨"b", ["v1", "v2"]⟩] ++ [])) i)) ∧
    (∀ ls ∈ generateLabelCombinations ([⟨"b", ["v1", "v2"]⟩] ++ (⟨"a", []⟩ : ReplicationLabel) :: []) 2,
       ∀ p ∈ ls, p.1 ≠ (⟨"a", []⟩ : ReplicationLabel).name) ∧
    (∃ v ∈ (List.range 2).map (fun j => "bench-" ++ toString (j + 1)),
       ("benchmark_instance", v) ∈
         combPairs (autoFill 2 (([] : List ReplicationLabel) ++ (⟨"benchmark_instance", []⟩ : ReplicationLabel) :: [])) 0) :=
  ⟨⟨rfl, by decide, by decide, by decide⟩,
   C10_empty_entry_contribution.1 [⟨"b", ["v1", "v2"]⟩] [] ⟨"a", []⟩ 2 rfl (by decide),
   C10_empty_entry_contribution.2.1 [⟨"b", ["v1", "v2"]⟩] [] ⟨"a", []⟩ 2 rfl (by decide) (by decide),
   C10_empty_entry_contribution.2.2 [] [] 2 0 (by decide)⟩

theorem eq_nil_of_isEmpty {α : Type*} {l : List α} (h : l.isEmpty = true) : l = [] := by
  cases l with
  | nil => rfl
  | cons a t => simp [List.isEmpty] at h

theorem ne_nil_of_isEmpty_false {α : Type*} {l : List α} (h : l.isEmpty = false) : l ≠ [] := by
  cases l with
  | nil => simp [List.isEmpty] at h
  | cons a t => simp

theorem convertLoop_skip (nows : Nat → Int) (k : Nat) (tc : TimestampCoordinator)
    (bad : RawPair) (rest : List RawPair) (hbad : isValidPair bad = false) :
    convertLoop nows k tc (bad :: rest) = convertLoop nows k tc rest := by
  cases bad with
  | nil => rfl
  | cons e1 t1 =>
    cases t1 with
    | nil => cases e1 <;> rfl
    | cons e2 t2 =>
      cases t2 with
      | nil =>
        cases e2 with
        | num n => rfl
        | other => rfl
        | str s =>
          have hp : parseGoFloat s = none := by
            cases hps : parseGoFloat s with
            | none => rfl
            | some q =>
              simp [isValidPair, hps] at hbad
          simp [convertLoop, hp]
      | cons e3 t3 => cases e2 <;> rfl

/-- C4 counterexample, two failing inputs of the claim as stated.  First,
on the raw pair [2, Inf] the second element parses with a nil error to the
non-finite value +Inf (as `strconv.ParseFloat` does), so it does not parse
as a finite float, yet the pair is kept as a sample rather than silently
dropped.  Second, on an empty raw pair list zero samples remain after
conversion, yet the call fails with the up-front no-values error rather
than with NoValidSamplesError, refuting the claimed "exactly when". -/
theorem C4_counterexample :
    parseGoFloat "Inf" = some GoFloat.posInf ∧
    (∀ q, parseGoFloat "Inf" ≠ some (GoFloat.finite q)) ∧
    convertLoop (fun _ => 0) 0 (NewTimestampCoordinator 0)
        [[RawElem.num 2, RawElem.str "Inf"]] = [⟨1, GoFloat.posInf⟩] ∧
    convertToTimeSeries (fun _ => 0) (NewTimestampCoordinator 0) []
        [[RawElem.num 2, RawElem.str "Inf"]] =
      Except.ok ⟨[], [⟨1, GoFloat.posInf⟩]⟩ ∧
    convertLoop (fun _ => 0) 0 (NewTimestampCoordinator 0) [] = [] ∧
    convertToTimeSeries (fun _ => 0) (NewTimestampCoordinator 0) [] [] =
      Except.error ConvError.noValues ∧
    convertToTimeSeries (fun _ => 0) (NewTimestampCoordinator 0) [] [] ≠
      Except.error ConvError.noValidSamples := by
  refine ⟨by decide, ?_, by decide, rfl, rfl, rfl, ?_⟩
  · intro q h
    rw [show parseGoFloat "Inf" = some GoFloat.posInf by decide] at h
    exact GoFloat.noConfusion (Option.some.inj h)
  · intro h
    simp [convertToTimeSeries] at h

/-- C4 (amended): every raw pair without exactly two elements, with a
non-string second element, or whose second element fails Go float parsing
(syntax error or overflow range error) is silently dropped while the rest
of the series is still converted; a pair whose second element parses with
a nil error is kept even when the value is non-finite (the Inf, Infinity
and NaN literals), so the drop condition is parse failure, not
non-finiteness; for a non-empty raw pair list the call fails with
NoValidSamplesError exactly when zero samples remain after conversion,
and never with the up-front no-values error (which is reserved for an
empty pair list). -/
theorem C4_convertToTimeSeries (nows : Nat → Int) (tc : TimestampCoordinator)
    (labels : List (String × String)) (values : List RawPair) (hne : values ≠ []) :
    (∀ (bad : RawPair) (rest : List RawPair) (k : Nat) (tc' : TimestampCoordinator),
      isValidPair bad = false →
      convertLoop nows k tc' (bad :: rest) = convertLoop nows k tc' rest) ∧
    (∀ (x : RawElem) (s : String) (v : GoFloat) (rest : List RawPair) (k : Nat)
       (tc' : TimestampCoordinator), parseGoFloat s = some v →
      convertLoop nows k tc' ([x, RawElem.str s] :: rest) =
        ⟨(NextTimestamp tc' (nows k)).1, v⟩ ::
          convertLoop nows (k + 1) (NextTimestamp tc' (nows k)).2 rest) ∧
    (convertToTimeSeries nows tc labels values = Except.error ConvError.noValidSamples ↔
      convertLoop nows 0 tc values = []) ∧
    convertToTimeSeries nows tc labels values ≠ Except.error ConvError.noValues := by
  have hE : values.isEmpty = false := isEmpty_false_of_ne_nil hne
  refine ⟨fun bad rest k tc' hbad => convertLoop_skip nows k tc' bad rest hbad,
    fun x s v rest k tc' hv => by simp [convertLoop, hv], ?_, ?_⟩
  · unfold convertToTimeSeries
    rw [hE]
    simp only [Bool.false_eq_true, if_false]
    cases hs : (convertLoop nows 0 tc values).isEmpty with
    | true =>
      rw [if_pos rfl]
      exact ⟨fun _ => eq_nil_of_isEmpty hs, fun _ => rfl⟩
    | false =>
      simp only [Bool.false_eq_true, if_false]
      constructor
      · intro h
        simp at h
      · intro h
        exact absurd h (ne_nil_of_isEmpty_false hs)
  · unfold convertToTimeSeries
    rw [hE]
    simp only [Bool.false_eq_true, if_false]
    cases hs : (convertLoop nows 0 tc values).isEmpty with
    | true =>
      rw [if_pos rfl]
      intro h
      simp at h
    | false =>
      simp only [Bool.false_eq_true, if_false]
      intro h
      simp at h

/-- Witness for the amended C4 at a concrete series with a valid finite
pair, an invalid pair and a parsed non-finite pair. -/
theorem C4_convertToTimeSeries_witness :
    ([[RawElem.num 1234567890, RawElem.str "3.14"], [RawElem.str "x", RawElem.str "not-a-number"],
      [RawElem.num 2, RawElem.str "Inf"]] : List RawPair) ≠ [] ∧
    ((∀ (bad : RawPair) (rest : List RawPair) (k : Nat) (tc' : TimestampCoordinator),
      isValidPair bad = false →
      convertLoop (fun _ => 5) k tc' (bad :: rest) = convertLoop (fun _ => 5) k tc' rest) ∧
    (∀ (x : RawElem) (s : String) (v : GoFloat) (rest : List RawPair) (k : Nat)
       (tc' : TimestampCoordinator), parseGoFloat s = some v →
      convertLoop (fun _ => 5) k tc' ([x, RawElem.str s] :: rest) =
        ⟨(NextTimestamp tc' ((fun _ => 5) k)).1, v⟩ ::
          convertLoop (fun _ => 5) (k + 1) (NextTimestamp tc' ((fun _ => 5) k)).2 rest) ∧
    (convertToTimeSeries (fun _ => 5) (NewTimestampCoordinator 0) [("__name__", "m")]
        [[RawElem.num 1234567890, RawElem.str "3.14"], [RawElem.str "x", RawElem.str "not-a-number"],
         [RawElem.num 2, RawElem.str "Inf"]] =
        Except.error ConvError.noValidSamples ↔
      convertLoop (fun _ => 5) 0 (NewTimestampCoordinator 0)
        [[RawElem.num 1234567890, RawElem.str "3.14"], [RawElem.str "x", RawElem.str "not-a-number"],
         [RawElem.num 2, RawElem.str "Inf"]] = []) ∧
    convertToTimeSeries (fun _ => 5) (NewTimestampCoordinator 0) [("__name__", "m")]
        [[RawElem.num 1234567890, RawElem.str "3.14"], [RawElem.str "x", RawElem.str "not-a-number"],
         [RawElem.num 2, RawElem.str "Inf"]] ≠
        Except.error ConvError.noValues) :=
  ⟨by decide,
   C4_convertToTimeSeries (fun _ => 5) (NewTimestampCoordinator 0) [("__name__", "m")]
     [[RawElem.num 1234567890, RawElem.str "3.14"], [RawElem.str "x", RawElem.str "not-a-number"],
      [RawElem.num 2, RawElem.str "Inf"]]
     (by decide)⟩

theorem chunksOf_join {α : Type*} (bs : Nat) (hbs : bs ≠ 0) (l : List α) :
    (chunksOf bs l).flatten = l := by
  cases l with
  | nil => rw [chunksOf]; rfl
  | cons a t =>
    rw [chunksOf, dif_neg hbs, List.flatten_cons,
      chunksOf_join bs hbs ((a :: t).drop bs)]
    exact List.take_append_drop bs (a :: t)
termination_by l.length
decreasing_by
  simp only [List.length_drop, List.length_cons]
  omega

theorem chunksOf_length_le {α : Type*} (bs : Nat) (l : List α) :
    ∀ c ∈ chunksOf bs l, c.length ≤ bs := by
  cases l with
  | nil =>
    intro c hc
    rw [chunksOf] at hc
    simp at hc
  | cons a t =>
    intro c hc
    by_cases hbs : bs = 0
    · rw [chunksOf, dif_pos hbs] at hc
      simp at hc
    · rw [chunksOf, dif_neg hbs] at hc
      rcases List.mem_cons.mp hc with rfl | hc'
      · exact List.length_take_le bs (a :: t)
      · exact chunksOf_length_le bs ((a :: t).drop bs) c hc'
termination_by l.length
decreasing_by
  simp only [List.length_drop, List.length_cons]
  omega

theorem sendBatchesLoop_success (net : Nat → Bool) (bs total : Nat) (hbs : bs ≠ 0)
    (hnet : ∀ k, net k = true) (i : Nat) (rem : List TimeSeries) :
    sendBatchesLoop net bs total i rem = (chunksOf bs rem, none) := by
  cases rem with
  | nil => rw [sendBatchesLoop, chunksOf]
  | cons s t =>
    rw [sendBatchesLoop, dif_neg hbs, hnet (i / bs), if_pos rfl,
      sendBatchesLoop_success net bs total hbs hnet (i + bs) ((s :: t).drop bs),
      chunksOf, dif_neg hbs]
termination_by rem.length
decreasing_by
  simp only [List.length_drop, List.length_cons]
  omega

theorem sendBatchesLoop_failure (net : Nat → Bool) (bs total : Nat) (hbs : bs ≠ 0) :
    ∀ (k : Nat) (rem : List TimeSeries) (c : Nat),
      k < (chunksOf bs rem).length →
      (∀ j, j < k → net (c + j) = true) → net (c + k) = false →
      sendBatchesLoop net bs total (c * bs) rem =
        ((chunksOf bs rem).take k,
         some ⟨c * bs + k * bs, min (c * bs + k * bs + bs) total⟩) := by
  intro k
  induction k with
  | zero =>
    intro rem c hk hprev hfail
    cases rem with
    | nil =>
      rw [chunksOf] at hk
      simp at hk
    | cons s t =>
      rw [sendBatchesLoop, dif_neg hbs]
      have hdiv : c * bs / bs = c := Nat.mul_div_cancel c (Nat.pos_of_ne_zero hbs)
      have hf : net c = false := by simpa using hfail
      rw [hdiv, hf]
      simp only [Bool.false_eq_true, if_false]
      simp
  | succ m ih =>
    intro rem c hk hprev hfail
    cases rem with
    | nil =>
      rw [chunksOf] at hk
      simp at hk
    | cons s t =>
      rw [sendBatchesLoop, dif_neg hbs]
      have hdiv : c * bs / bs = c := Nat.mul_div_cancel c (Nat.pos_of_ne_zero hbs)
      have h0 : net c = true := by simpa using hprev 0 (Nat.succ_pos m)
      rw [hdiv, h0, if_pos rfl]
      have harg : c * bs + bs = (c + 1) * bs := by ring
      rw [harg]
      have hk' : m < (chunksOf bs ((s :: t).drop bs)).length := by
        rw [chunksOf, dif_neg hbs] at hk
        simpa using hk
      have hprev' : ∀ j, j < m → net ((c + 1) + j) = true := by
        intro j hj
        have := hprev (j + 1) (by omega)
        rwa [show c + (j + 1) = (c + 1) + j by ring] at this
      have hfail' : net ((c + 1) + m) = false := by
        rw [show (c + 1) + m = c + (m + 1) by ring]
        exact hfail
      rw [ih ((s :: t).drop bs) (c + 1) hk' hprev' hfail']
      rw [chunksOf, dif_neg hbs]
      simp only [List.take_succ_cons]
      have hidx : (c + 1) * bs + m * bs = c * bs + (m + 1) * bs := by ring
      rw [hidx]

/-- C6: sendInBatches splits the series list in order into consecutive
batches of at most batchSize series (their concatenation is the input);
when every batch succeeds all batches are sent with no error; when batch k
is the first to fail, exactly the first k batches are sent, the call
returns an error carrying the failing batch element index range, and no
later batch is attempted (nor is the failing batch retried). -/
theorem C6_sendInBatches (net : Nat → Bool) (bs : Nat) (l : List TimeSeries) (hbs : 1 ≤ bs) :
    (chunksOf bs l).flatten = l ∧
    (∀ c ∈ chunksOf bs l, c.length ≤ bs) ∧
    ((∀ k, net k = true) → sendInBatches net bs l = (chunksOf bs l, none)) ∧
    (∀ k, k < (chunksOf bs l).length → (∀ j, j < k → net j = true) → net k = false →
      sendInBatches net bs l =
        ((chunksOf bs l).take k, some ⟨k * bs, min (k * bs + bs) l.length⟩)) := by
  have hbs' : bs ≠ 0 := by omega
  refine ⟨chunksOf_join bs hbs' l, chunksOf_length_le bs l, ?_, ?_⟩
  · intro hnet
    exact sendBatchesLoop_success net bs l.length hbs' hnet 0 l
  · intro k hk hprev hfail
    have hz := sendBatchesLoop_failure net bs l.length hbs' k l 0 hk
      (fun j hj => by simpa using hprev j hj) (by simpa using hfail)
    unfold sendInBatches
    simpa using hz

/-- Witness for C6 with batch size 2 over five series and a network that
fails the second batch. -/
theorem C6_sendInBatches_witness :
    1 ≤ 2 ∧
    ((chunksOf 2 fiveSeries).flatten = fiveSeries ∧
     (∀ c ∈ chunksOf 2 fiveSeries, c.length ≤ 2) ∧
     ((∀ k, failSecond k = true) →
       sendInBatches failSecond 2 fiveSeries = (chunksOf 2 fiveSeries, none)) ∧
     (∀ k, k < (chunksOf 2 fiveSeries).length → (∀ j, j < k → failSecond j = true) →
       failSecond k = false →
       sendInBatches failSecond 2 fiveSeries =
         ((chunksOf 2 fiveSeries).take k, some ⟨k * 2, min (k * 2 + 2) fiveSeries.length⟩))) :=
  ⟨by decide, C6_sendInBatches failSecond 2 fiveSeries (by decide)⟩

theorem sendSamplesLoop_acquires (wp : Bool) (burst : Nat) (hb : burst ≠ 0) (l : List RawPair) :
    (sendSamplesLoop wp burst l).acquires = (chunksOf burst l).map List.length := by
  cases l with
  | nil =>
    rw [sendSamplesLoop, chunksOf]
    rfl
  | cons v t =>
    rw [sendSamplesLoop, dif_neg hb, chunksOf, dif_neg hb]
    simp only [List.map_cons]
    rw [← sendSamplesLoop_acquires wp burst hb ((v :: t).drop burst)]
termination_by l.length
decreasing_by
  simp only [List.length_drop, List.length_cons]
  omega

/-- C8: for a non-empty sample list, sendSamples splits the samples into
consecutive chunks of at most burst = 2 x samplesPerSecond, acquires
tokens exactly once per chunk with that chunk size, every request is at
most the burst capacity, and the requests account for every sample. -/
theorem C8_sendSamples (wp : Bool) (sps : Nat) (values : List RawPair)
    (hsps : 1 ≤ sps) (hne : values ≠ []) :
    (sendSamples wp (2 * sps) values).acquires = (chunksOf (2 * sps) values).map List.length ∧
    (∀ n ∈ (sendSamples wp (2 * sps) values).acquires, n ≤ 2 * sps) ∧
    (chunksOf (2 * sps) values).flatten = values ∧
    ((sendSamples wp (2 * sps) values).acquires).sum = values.length := by
  have hb : 2 * sps ≠ 0 := by omega
  have hE : values.isEmpty = false := isEmpty_false_of_ne_nil hne
  have hacq : (sendSamples wp (2 * sps) values).acquires =
      (chunksOf (2 * sps) values).map List.length := by
    unfold sendSamples
    rw [hE]
    simp only [Bool.false_eq_true, if_false]
    exact sendSamplesLoop_acquires wp (2 * sps) hb values
  refine ⟨hacq, ?_, chunksOf_join (2 * sps) hb values, ?_⟩
  · intro n hn
    rw [hacq] at hn
    rcases List.mem_map.mp hn with ⟨c, hc, rfl⟩
    exact chunksOf_length_le (2 * sps) values c hc
  · rw [hacq]
    calc ((chunksOf (2 * sps) values).map List.length).sum
        = (chunksOf (2 * sps) values).flatten.length := (List.length_flatten _).symm
      _ = values.length := by rw [chunksOf_join (2 * sps) hb values]

/-- Witness for C8 with one sample per second and three samples. -/
theorem C8_sendSamples_witness :
    (1 ≤ 1 ∧ ([[], [], []] : List RawPair) ≠ []) ∧
    ((sendSamples true (2 * 1) [[], [], []]).acquires =
       (chunksOf (2 * 1) ([[], [], []] : List RawPair)).map List.length ∧
     (∀ n ∈ (sendSamples true (2 * 1) [[], [], []]).acquires, n ≤ 2 * 1) ∧
     (chunksOf (2 * 1) ([[], [], []] : List RawPair)).flatten = [[], [], []] ∧
     ((sendSamples true (2 * 1) [[], [], []]).acquires).sum =
       ([[], [], []] : List RawPair).length) :=
  ⟨⟨by decide, by decide⟩, C8_sendSamples true 1 [[], [], []] (by decide) (by decide)⟩

theorem generateLabelCombinations_length_le (replication : List ReplicationLabel) (rf : Nat) :
    (generateLabelCombinations replication rf).length ≤ rf := by
  unfold generateLabelCombinations
  cases h : replication.isEmpty with
  | true => simp
  | false =>
    simp only [Bool.false_eq_true, if_false, List.length_map, List.length_range]
    exact Nat.min_le_left _ _

theorem replicateLoop_dryRun (rf : Nat) (sl : List (String × String)) (values : List RawPair) :
    ∀ (combos : List (List (String × String))) (i : Nat), i + combos.length ≤ rf →
      replicateLoop true rf sl values i combos =
        ⟨combos.map (fun ls => mergeLabels sl ls), []⟩ := by
  intro combos
  induction combos with
  | nil => intro i h; rfl
  | cons ls rest ih =>
    intro i h
    rw [replicateLoop]
    rw [if_neg (by simp at h; omega : ¬ rf ≤ i)]
    rw [ih (i + 1) (by simp at h; omega)]
    rfl

theorem sendSamplesLoop_no_writer (burst : Nat) (l : List RawPair) :
    (sendSamplesLoop false burst l).written = [] := by
  cases l with
  | nil => rw [sendSamplesLoop]
  | cons v t =>
    by_cases hb : burst = 0
    · rw [sendSamplesLoop, dif_pos hb]
    · rw [sendSamplesLoop, dif_neg hb]
      simp only [Bool.false_eq_true, if_false, List.nil_append]
      exact sendSamplesLoop_no_writer burst ((v :: t).drop burst)
termination_by l.length
decreasing_by
  simp only [List.length_drop, List.length_cons]
  omega

/-- C9: with the dry-run flag set, replicateSeries makes no sendSamples
call and reports exactly one intended series per generated label
combination, namely the merge of the original series labels with that
combination; the remote writer is nil in dry-run mode, so even a direct
sendSamples call would write nothing; in particular one series with
replication factor 2 and no configured replication labels yields exactly
two reported series and no send. -/
theorem C9_dryRun (rf : Nat) (replication : List ReplicationLabel)
    (seriesLabels : List (String × String)) (values : List RawPair) :
    (replicateSeries true rf replication seriesLabels values).sent = [] ∧
    (replicateSeries true rf replication seriesLabels values).reported =
      (generateLabelCombinations replication rf).map (fun ls => mergeLabels seriesLabels ls) ∧
    (replicateSeries true rf replication seriesLabels values).reported.length =
      (generateLabelCombinations replication rf).length ∧
    (∀ burst vs, (sendSamples (writerPresent true) burst vs).written = []) ∧
    (replicateSeries true 2 [] [("__name__", "m")] values).reported.length = 2 := by
  have hloop := replicateLoop_dryRun rf seriesLabels values
    (generateLabelCombinations replication rf) 0
    (by simpa using generateLabelCombinations_length_le replication rf)
  have hrep : replicateSeries true rf replication seriesLabels values =
      ⟨(generateLabelCombinations replication rf).map (fun ls => mergeLabels seriesLabels ls),
       []⟩ := by
    unfold replicateSeries
    exact hloop
  refine ⟨by rw [hrep], by rw [hrep], by rw [hrep]; simp, ?_, ?_⟩
  · intro burst vs
    unfold sendSamples writerPresent
    cases hE : vs.isEmpty with
    | true => rw [if_pos rfl]
    | false =>
      rw [if_neg (by simp)]
      exact sendSamplesLoop_no_writer burst vs
  · have hloop2 := replicateLoop_dryRun 2 [("__name__", "m")] values
      (generateLabelCombinations [] 2) 0
      (by simpa using generateLabelCombinations_length_le [] 2)
    unfold replicateSeries
    rw [hloop2]
    simp [generateLabelCombinations]

/-- C7: filtering keeps exactly the names that match none of the
successfully compiled patterns (a name is excluded iff at least one
compiled pattern matches it), and a pattern that fails to compile is
skipped without affecting compilation of the remaining patterns or the
filtering itself. -/
theorem C7_filterMetrics (compile : String → Option (String → Bool))
    (patterns metrics : List String) :
    (∀ m, m ∈ filterMetrics (compilePatterns compile patterns) metrics ↔
      m ∈ metrics ∧ ∀ pat ∈ patterns, ∀ r, compile pat = some r → r m = false) ∧
    (∀ (pre post : List String) (bad : String), compile bad = none →
      compilePatterns compile (pre ++ bad :: post) = compilePatterns compile (pre ++ post)) := by
  constructor
  · intro m
    unfold filterMetrics compilePatterns
    rw [List.mem_filter]
    apply and_congr_right
    intro _
    constructor
    · intro hflt pat hpat r hr
      rw [Bool.not_eq_true'] at hflt
      cases hrm : r m with
      | false => rfl
      | true =>
        exfalso
        have hany : (patterns.filterMap compile).any (fun r => r m) = true :=
          List.any_eq_true.mpr ⟨r, List.mem_filterMap.mpr ⟨pat, hpat, hr⟩, hrm⟩
        rw [hany] at hflt
        exact absurd hflt (by simp)
    · intro hall
      rw [Bool.not_eq_true']
      cases hany : (patterns.filterMap compile).any (fun r => r m) with
      | false => rfl
      | true =>
        exfalso
        rcases List.any_eq_true.mp hany with ⟨r, hrmem, hrm⟩
        rcases List.mem_filterMap.mp hrmem with ⟨pat, hpat, hr⟩
        rw [hall pat hpat r hr] at hrm
        exact Bool.false_ne_true hrm
  · intro pre post bad hbad
    unfold compilePatterns
    rw [List.filterMap_append, List.filterMap_append, List.filterMap_cons_none hbad]

/-- Witness for C7: the pattern ^go_ excludes go_memstats_alloc_bytes but
retains http_requests_total, while the invalid pattern [unclosed is
skipped. -/
theorem C7_filterMetrics_witness :
    demoCompile "[unclosed" = none ∧
    ("http_requests_total" ∈
        filterMetrics (compilePatterns demoCompile ["^go_", "[unclosed"])
          ["go_memstats_alloc_bytes", "http_requests_total"] ↔
      "http_requests_total" ∈ ["go_memstats_alloc_bytes", "http_requests_total"] ∧
      ∀ pat ∈ ["^go_", "[unclosed"], ∀ r, demoCompile pat = some r →
        r "http_requests_total" = false) ∧
    compilePatterns demoCompile (["^go_"] ++ "[unclosed" :: []) =
      compilePatterns demoCompile (["^go_"] ++ []) :=
  ⟨rfl,
   (C7_filterMetrics demoCompile ["^go_", "[unclosed"]
      ["go_memstats_alloc_bytes", "http_requests_total"]).1 "http_requests_total",
   (C7_filterMetrics demoCompile ["^go_", "[unclosed"]
      ["go_memstats_alloc_bytes", "http_requests_total"]).2 ["^go_"] [] "[unclosed" rfl⟩

theorem range_map_shift (n : Nat) (i : Nat) :
    (List.range (n + 1)).map (fun t => i + t) =
      i :: (List.range n).map (fun t => i + 1 + t) := by
  rw [List.range_succ_eq_map, List.map_cons, List.map_map]
  have hf : ((fun t => i + t) ∘ Nat.succ) = (fun t => i + 1 + t) := by
    funext t
    simp [Function.comp]
    omega
  rw [hf]
  simp

theorem processSeriesLoop_all (outs : List (Except String Unit)) :
    ∀ j, processSeriesLoop j outs = (List.range outs.length).map (fun t => j + t) := by
  induction outs with
  | nil => intro j; rfl
  | cons o rest ih =>
    intro j
    cases o with
    | error e =>
      rw [processSeriesLoop, ih (j + 1)]
      rw [List.length_cons, range_map_shift]
    | ok u =>
      rw [processSeriesLoop, ih (j + 1)]
      rw [List.length_cons, range_map_shift]

theorem processMetricsLoop_error_cancelled (cancel : Nat → Bool)
    (query : Nat → Except String (List (Except String Unit))) :
    ∀ (ms : List String) (i : Nat) (e : RunError),
      (processMetricsLoop cancel query i ms).2 = some e → e = RunError.cancelled := by
  intro ms
  induction ms with
  | nil =>
    intro i e h
    simp [processMetricsLoop] at h
  | cons m rest ih =>
    intro i e h
    rw [processMetricsLoop] at h
    by_cases hc : cancel i
    · rw [if_pos hc] at h
      simp at h
      exact h.symm
    · rw [if_neg hc] at h
      cases hq : processMetric (query i) with
      | error err =>
        rw [hq] at h
        exact ih (i + 1) e h
      | ok tr =>
        rw [hq] at h
        exact ih (i + 1) e h

theorem processMetricsLoop_query_irrelevant (cancel : Nat → Bool)
    (q1 q2 : Nat → Except String (List (Except String Unit))) :
    ∀ (ms : List String) (i : Nat),
      processMetricsLoop cancel q1 i ms = processMetricsLoop cancel q2 i ms := by
  intro ms
  induction ms with
  | nil => intro i; rfl
  | cons m rest ih =>
    intro i
    rw [processMetricsLoop, processMetricsLoop]
    by_cases hc : cancel i
    · rw [if_pos hc, if_pos hc]
    · rw [if_neg hc, if_neg hc]
      cases hq1 : processMetric (q1 i) <;> cases hq2 : processMetric (q2 i) <;>
        rw [ih (i + 1)]

theorem processMetricsLoop_no_cancel (cancel : Nat → Bool)
    (query : Nat → Except String (List (Except String Unit)))
    (hnc : ∀ i, cancel i = false) :
    ∀ (ms : List String) (i : Nat),
      processMetricsLoop cancel query i ms =
        ((List.range ms.length).map (fun t => i + t), none) := by
  intro ms
  induction ms with
  | nil => intro i; rfl
  | cons m rest ih =>
    intro i
    rw [processMetricsLoop]
    rw [if_neg (by simp [hnc i])]
    cases hq : processMetric (query i) <;>
      rw [ih (i + 1), List.length_cons, range_map_shift]

/-- C5: a discovery failure aborts the whole run with a discovery error;
any error returned by the run is a discovery failure or cancellation; the
control flow of the metric loop does not depend on the per-metric query
and replication outcomes (failures are logged and the loop proceeds), and
without cancellation every metric is attempted; the per-series loop
attempts every series regardless of per-series outcomes. -/
theorem C5_Run_error_policy :
    (∀ (regexes : List (String → Bool)) (msg : String) (cancel : Nat → Bool)
       (query : Nat → Except String (List (Except String Unit))),
      Run regexes (Except.error msg) cancel query = Except.error (RunError.discovery msg)) ∧
    (∀ regexes disc cancel query e,
      Run regexes disc cancel query = Except.error e →
      (∃ msg, disc = Except.error msg ∧ e = RunError.discovery msg) ∨
        e = RunError.cancelled) ∧
    (∀ cancel q1 q2 i ms,
      processMetricsLoop cancel q1 i ms = processMetricsLoop cancel q2 i ms) ∧
    (∀ cancel query, (∀ i, cancel i = false) → ∀ (ms : List String) (i : Nat),
      processMetricsLoop cancel query i ms =
        ((List.range ms.length).map (fun t => i + t), none)) ∧
    (∀ j outs, processSeriesLoop j outs = (List.range outs.length).map (fun t => j + t)) := by
  refine ⟨?_, ?_, ?_, ?_, ?_⟩
  · intro regexes msg cancel query
    rfl
  · intro regexes disc cancel query e h
    cases disc with
    | error msg =>
      left
      refine ⟨msg, rfl, ?_⟩
      unfold Run at h
      simp at h
      exact h.symm
    | ok metrics =>
      right
      have h2 : (match processMetricsLoop cancel query 0 (filterMetrics regexes metrics) with
          | (_, some e) => (Except.error e : Except RunError (List Nat))
          | (tr, none) => Except.ok tr) = Except.error e := h
      rcases hP : processMetricsLoop cancel query 0 (filterMetrics regexes metrics)
        with ⟨tr, oe⟩
      rw [hP] at h2
      cases oe with
      | none => simp at h2
      | some e2 =>
        simp at h2
        rw [← h2]
        exact processMetricsLoop_error_cancelled cancel query
          (filterMetrics regexes metrics) 0 e2 (by rw [hP])
  · intro cancel q1 q2 i ms
    exact processMetricsLoop_query_irrelevant cancel q1 q2 ms i
  · intro cancel query hnc ms i
    exact processMetricsLoop_no_cancel cancel query hnc ms i
  · intro j outs
    exact processSeriesLoop_all outs j

/-- Witness for C5: a failing discovery yields the discovery error, and
with no cancellation both metrics are attempted although every query
fails. -/
theorem C5_Run_error_policy_witness :
    (∀ i, (fun _ => false : Nat → Bool) i = false) ∧
    Run [] (Except.error "down") (fun _ => false) (fun _ => Except.error "q") =
      Except.error (RunError.discovery "down") ∧
    processMetricsLoop (fun _ => false) (fun _ => Except.error "q") 0 ["m1", "m2"] =
      ((List.range 2).map (fun t => 0 + t), none) :=
  ⟨fun i => rfl,
   C5_Run_error_policy.1 [] "down" (fun _ => false) (fun _ => Except.error "q"),
   C5_Run_error_policy.2.2.2.1 (fun _ => false) (fun _ => Except.error "q")
     (fun i => rfl) ["m1", "m2"] 0⟩
